import Mathlib

/-!
Verification of the OpenWork client's event-sourced session synchronizer.

This file shallowly embeds the pure core of the client (its state-store
primitives, model resolution, permission reconciliation, SSE normalization
and the health probe) as executable Lean definitions translated from the
TypeScript source, and proves the specification's claims about them.
-/

set_option maxHeartbeats 1000000

namespace OpenWork

/-- A model reference: provider id plus model id, structural equality
(`ModelRef` in the source). -/
structure ModelRef where
  providerID : String
  modelID : String
deriving Repr, DecidableEq

/-- Message role (`role` field of the SDK `Message`): the source only
distinguishes `"user"` from everything else when reading models. -/
inductive Role where
  | user
  | assistant
deriving Repr, DecidableEq

/-- The slice of the SDK `Message` the synchronizer reads: identity,
owning session, role, and the optional model reference carried on user
messages. -/
structure Message where
  id : String
  sessionID : String
  role : Role
  model : Option ModelRef
deriving Repr, DecidableEq

/-- The slice of the SDK `Part` the synchronizer reads: identity, the
`messageID` foreign key, plus the type/text payload. -/
structure Part where
  id : String
  messageID : String
  type : String
  text : String
deriving Repr, DecidableEq

/-- `MessageWithParts` from the source: message info together with its
ordered part list. -/
structure MessageWithParts where
  info : Message
  parts : List Part
deriving Repr, DecidableEq

/-- The slice of the SDK `Session` the synchronizer stores: identity plus
display payload. -/
structure Session where
  id : String
  title : String
  slug : String
  timeUpdated : Nat
deriving Repr, DecidableEq

/-- A todo item (`{id, content, status, priority}` in the source). -/
structure TodoItem where
  id : String
  content : String
  status : String
  priority : String
deriving Repr, DecidableEq

/-- The slice of the SDK `PermissionRequest` used by the client. -/
structure ApiPermissionRequest where
  id : String
  sessionID : String
  permission : String
  patterns : List String
deriving Repr, DecidableEq

/-- `PendingPermission = ApiPermissionRequest & { receivedAt: number }`
from the source: the server payload plus the client-only first-seen
timestamp. -/
structure PendingPermission extends ApiPermissionRequest where
  receivedAt : Nat
deriving Repr, DecidableEq

/-- `Array.prototype.findIndex`: index of the first element satisfying the
predicate, `none` when there is none (JS returns `-1`). -/
def findIndexL (p : α → Bool) : List α → Option Nat
  | [] => none
  | x :: xs => if p x then some 0 else (findIndexL p xs).map (· + 1)

/-- `upsertSession(list, next)` from the source: replace the entry whose id
matches `next.id` (via `findIndex` and `copy[idx] = next`), else append
(`[...list, next]`). -/
def upsertSession (list : List Session) (next : Session) : List Session :=
  match findIndexL (fun s => s.id == next.id) list with
  | none => list ++ [next]
  | some idx => list.set idx next

/-- `upsertMessage(list, nextInfo)` from the source: if a message with
`nextInfo.id` exists, replace only its `info` field
(`copy[idx] = { ...copy[idx], info: nextInfo }`); else append a fresh entry
with an empty part list (`list.concat({ info: nextInfo, parts: [] })`).
The inner `none` branch is unreachable (the found index is in bounds). -/
def upsertMessage (list : List MessageWithParts) (nextInfo : Message) :
    List MessageWithParts :=
  match findIndexL (fun m => m.info.id == nextInfo.id) list with
  | none => list.concat { info := nextInfo, parts := [] }
  | some idx =>
    match list[idx]? with
    | none => list
    | some old => list.set idx { old with info := nextInfo }

/-- `upsertPart(list, nextPart)` from the source: locate the message whose
id equals `nextPart.messageID`; if none, return the collection unchanged;
otherwise replace the part matching `nextPart.id` in place
(`parts[partIdx] = nextPart`) or push it at the end. The inner `none`
branch is unreachable (the found index is in bounds). -/
def upsertPart (list : List MessageWithParts) (nextPart : Part) :
    List MessageWithParts :=
  match findIndexL (fun m => m.info.id == nextPart.messageID) list with
  | none => list
  | some msgIdx =>
    match list[msgIdx]? with
    | none => list
    | some msg =>
      match findIndexL (fun p => p.id == nextPart.id) msg.parts with
      | none => list.set msgIdx { msg with parts := msg.parts ++ [nextPart] }
      | some partIdx =>
        list.set msgIdx { msg with parts := msg.parts.set partIdx nextPart }

/-- `removePart(list, messageID, partID)` from the source: filter the
matching part out of the matching message; no-op when the message is
absent. The inner `none` branch is unreachable. -/
def removePart (list : List MessageWithParts) (messageID partID : String) :
    List MessageWithParts :=
  match findIndexL (fun m => m.info.id == messageID) list with
  | none => list
  | some msgIdx =>
    match list[msgIdx]? with
    | none => list
    | some msg =>
      list.set msgIdx { msg with parts := msg.parts.filter (fun p => !(p.id == partID)) }

/-- Recursive form of "replace the first match with `g old`, else append
`y` at the end"; used to reason about the `findIndex`-based store
primitives. -/
def upsertByRec (p : α → Bool) (g : α → α) (y : α) : List α → List α
  | [] => [y]
  | x :: xs => if p x then g x :: xs else x :: upsertByRec p g y xs

/-- Recursive form of "update the first match with `g`, else leave the
list unchanged". -/
def updateFirstRec (p : α → Bool) (g : α → α) : List α → List α
  | [] => []
  | x :: xs => if p x then g x :: xs else x :: updateFirstRec p g xs

/-- A finite sequence of `session.created`/`session.updated` payloads applied
to the store in order, as the SSE handler does
(`setSessions((list) => upsertSession(list, props.info))`). -/
def applySessionEvents (init : List Session) (ops : List Session) : List Session :=
  ops.foldl upsertSession init

/-- The entry stored for an id (`sessions().find((s) => s.id === id)`). -/
def findSessionById (l : List Session) (i : String) : Option Session :=
  l.find? (fun s => s.id == i)

/-- The payload of the last upsert applied for an id within a sequence. -/
def lastUpsertFor (ops : List Session) (i : String) : Option Session :=
  ops.reverse.find? (fun s => s.id == i)

/-- `modelFromUserMessage(info)` from the source: the model reference of a
user-authored message, `null` otherwise. (The source's `typeof` checks on
`providerID`/`modelID` are absorbed by the typed `ModelRef` fields.) -/
def modelFromUserMessage (info : Message) : Option ModelRef :=
  match info.role with
  | .user => info.model
  | .assistant => none

/-- `lastUserModelFromMessages(list)` from the source: scan the message
list backward (`for i = list.length - 1; i >= 0; i -= 1`) for the most
recent user message carrying a model. -/
def lastUserModelFromMessages (list : List MessageWithParts) : Option ModelRef :=
  list.reverse.findSome? (fun mw => modelFromUserMessage mw.info)

/-- A `Record<string, ModelRef>` signal, modelled as a lookup function. -/
def ModelMap : Type := String → Option ModelRef

/-- `{ ...current, [id]: v }` on a `Record<string, ModelRef>`. -/
def setModelEntry (m : ModelMap) (id : String) (v : ModelRef) : ModelMap :=
  fun s => if s == id then some v else m s

/-- `delete copy[id]` on a `Record<string, ModelRef>`. -/
def deleteModelEntry (m : ModelMap) (id : String) : ModelMap :=
  fun s => if s == id then none else m s

/-- The two per-session model maps: `sessionModelOverrideById` and
`sessionModelById` from the source. -/
structure ModelState where
  overrideById : ModelMap
  knownById : ModelMap

/-- `DEFAULT_MODEL` from the source. -/
def DEFAULT_MODEL : ModelRef :=
  { providerID := "opencode", modelID := "gpt-5-nano" }

/-- The `selectedSessionModel` memo from the source: per-session override,
else last-known model, else the most recent user message's model, else the
global default. -/
def selectedSessionModel (selectedId : Option String) (st : ModelState)
    (messages : List MessageWithParts) (defaultModel : ModelRef) : ModelRef :=
  match selectedId with
  | none => defaultModel
  | some id =>
    match st.overrideById id with
    | some m => m
    | none =>
      match st.knownById id with
      | some m => m
      | none =>
        match lastUserModelFromMessages messages with
        | some m => m
        | none => defaultModel

/-- The model-map effect of a successful `sendPrompt` for session `id` (the
source resolves `selectedSessionModel()`, sends, then records it in
`sessionModelById` and deletes any `sessionModelOverrideById` entry).
Returns the updated maps and the model that was sent. -/
def sendPromptModelEffect (id : String) (st : ModelState)
    (messages : List MessageWithParts) (defaultModel : ModelRef) :
    ModelState × ModelRef :=
  let model := selectedSessionModel (some id) st messages defaultModel
  ({ overrideById := deleteModelEntry st.overrideById id,
     knownById := setModelEntry st.knownById id model }, model)

/-- `refreshPendingPermissions` reconciliation from the source: map the
authoritative server list, taking `receivedAt` from the previously held
entry with the same id when present (`byId.get(p.id)?.receivedAt ?? now`),
else the current time. `new Map(current.map((p) => [p.id, p]))` keeps the
last entry for a duplicated id, hence the lookup in `current.reverse`. -/
def refreshPendingPermissions (current : List PendingPermission)
    (serverList : List ApiPermissionRequest) (now : Nat) :
    List PendingPermission :=
  serverList.map (fun p =>
    { toApiPermissionRequest := p,
      receivedAt :=
        match current.reverse.find? (fun q => q.id == p.id) with
        | some q => q.receivedAt
        | none => now })

/-- The `receivedAt` Map lookup over a pending-permission list (last entry
wins, as in `new Map(current.map((p) => [p.id, p]))`). -/
def receivedAtOf (l : List PendingPermission) (i : String) : Option Nat :=
  (l.reverse.find? (fun q => q.id == i)).map (fun q => q.receivedAt)

/-- The health payload returned by `client.global.health()` (`unwrap`ped):
the `healthy` flag plus the server version. -/
structure Health where
  healthy : Bool
  version : String
deriving Repr, DecidableEq

/-- Outcome of one polling attempt inside `waitForHealthy`: a payload from
the server, or a thrown error whose recorded message is `msg` (the source
stores `error.message`, or `"Unknown error"` for non-`Error` throws). -/
inductive PollOutcome where
  | ok (h : Health)
  | threw (msg : String)
deriving Repr, DecidableEq

/-- The polling loop of `waitForHealthy` from the source, over the finite
sequence of attempt outcomes admitted by the timeout window (the loop runs
while `Date.now() - start < timeoutMs`, sleeping `pollMs` between
attempts). The accumulator is the `lastError` variable; when the sequence
is exhausted the loop throws `lastError ?? "Timed out waiting for server
health"`. -/
def waitForHealthyGo : List PollOutcome → Option String → Except String Health
  | [], lastError => .error (lastError.getD "Timed out waiting for server health")
  | o :: rest, _lastError =>
    match o with
    | .ok h =>
      if h.healthy then .ok h
      else waitForHealthyGo rest (some "Server reported unhealthy")
    | .threw msg => waitForHealthyGo rest (some msg)

/-- `waitForHealthy` from the source: `lastError` starts as `null`. -/
def waitForHealthy (polls : List PollOutcome) : Except String Health :=
  waitForHealthyGo polls none

/-- The payload of the first poll that reports healthy, if any. -/
def firstHealthy (polls : List PollOutcome) : Option Health :=
  polls.findSome? (fun o =>
    match o with
    | .ok h => if h.healthy then some h else none
    | .threw _ => none)

/-- The failure reason recorded by the most recent failed attempt: the
fixed non-healthy reason for an unhealthy response, or the thrown error's
message. -/
def lastFailureReason (polls : List PollOutcome) : Option String :=
  polls.reverse.findSome? (fun o =>
    match o with
    | .ok h => if h.healthy then none else some "Server reported unhealthy"
    | .threw msg => some msg)

/-- The whitespace characters removed by JS `String.prototype.trim`
(ECMAScript WhiteSpace and LineTerminator code points). -/
def jsWhitespace (c : Char) : Bool :=
  c == ' ' || c == '\t' || c == '\n' || c == '\r' ||
  c == (Char.ofNat 0x0B) || c == (Char.ofNat 0x0C) ||
  c == (Char.ofNat 0xA0) || c == (Char.ofNat 0xFEFF) ||
  c == (Char.ofNat 0x1680) || (0x2000 ≤ c.toNat && c.toNat ≤ 0x200A) ||
  c == (Char.ofNat 0x2028) || c == (Char.ofNat 0x2029) ||
  c == (Char.ofNat 0x202F) || c == (Char.ofNat 0x205F) ||
  c == (Char.ofNat 0x3000)

/-- JS `String.prototype.trim` over the character list: strip leading and
trailing whitespace. -/
def trimL (l : List Char) : List Char :=
  ((l.dropWhile jsWhitespace).reverse.dropWhile jsWhitespace).reverse

/-- JS `String.prototype.split` with a single-character separator: always
returns at least one (possibly empty) piece. -/
def splitOnCharL (c : Char) : List Char → List (List Char)
  | [] => [[]]
  | x :: xs =>
    match splitOnCharL c xs with
    | [] => [[]]
    | piece :: pieces =>
      if x == c then [] :: piece :: pieces else (x :: piece) :: pieces

/-- JS `Array.prototype.join` with a single-character separator. -/
def joinWithChar (c : Char) : List (List Char) → List Char
  | [] => []
  | [piece] => piece
  | piece :: rest => piece ++ c :: joinWithChar c rest

/-- `formatModelRef(model)` from the source:
`` `${model.providerID}/${model.modelID}` ``. -/
def formatModelRef (m : ModelRef) : String :=
  m.providerID ++ "/" ++ m.modelID

/-- `parseModelRef(raw)` from the source: `null`/empty gives `null`; trim;
split on `"/"`; require a non-empty provider and at least one remaining
piece; the model id is the remaining pieces re-joined with `"/"`. -/
def parseModelRef (raw : Option String) : Option ModelRef :=
  match raw with
  | none => none
  | some s =>
    if s.data.isEmpty then none
    else
      let trimmed := trimL s.data
      if trimmed.isEmpty then none
      else
        match splitOnCharL '/' trimmed with
        | [] => none
        | providerID :: rest =>
          if providerID.isEmpty then none
          else if rest.isEmpty then none
          else some { providerID := String.mk providerID,
                      modelID := String.mk (joinWithChar '/' rest) }

/-- A JSON value, as produced by `JSON.parse`. -/
inductive Json where
  | null
  | bool (b : Bool)
  | num (n : Int)
  | str (s : String)
  | arr (items : List Json)
  | obj (fields : List (String × Json))

/-- JS property access `record[key]` on a parsed JSON value: defined for
objects, `undefined` (`none`) otherwise. -/
def Json.getField : Json → String → Option Json
  | .obj fields, key => (fields.find? (fun kv => kv.fst == key)).map (fun kv => kv.snd)
  | _, _ => none

/-- A normalized event record `{type, properties}` from the source. -/
structure OpencodeEvent where
  type : String
  properties : Option Json

/-- `normalizeEvent(raw)` from the source: accept a string `type` at the
top level, else inside a truthy object `payload`; anything else is
dropped. Non-object values (and JS arrays, whose `type`/`payload`
properties are `undefined`) normalize to `null`. -/
def normalizeEvent (raw : Json) : Option OpencodeEvent :=
  match raw with
  | .obj _ =>
    match raw.getField "type" with
    | some (.str t) => some { type := t, properties := raw.getField "properties" }
    | _ =>
      match raw.getField "payload" with
      | some payload =>
        match payload with
        | .obj _ =>
          match payload.getField "type" with
          | some (.str t) =>
            some { type := t, properties := payload.getField "properties" }
          | _ => none
        | _ => none
      | none => none
  | _ => none

/-- The slice of client state the SSE `subscribe` loop drives that this
development tracks: the `sseConnected` flag and the normalized event log
(`setEvents((prev) => [...prev.slice(-50), evt])`). The per-event store
dispatch applies the upsert/remove primitives defined above and is
verified separately through them. -/
structure SseState where
  sseConnected : Bool
  events : List OpencodeEvent

/-- JS `Array.prototype.slice(-n)`: the last `n` elements. -/
def lastN (n : Nat) (l : List α) : List α :=
  l.drop (l.length - n)

/-- JS `trim` on a string. -/
def trimStr (s : String) : String := String.mk (trimL s.data)

/-- One completed line of the SSE read loop, from the source: ignore lines
without the `data:` prefix; strip the prefix and trim; ignore empty
payloads and the `[DONE]` sentinel; parse JSON (a parse failure silently
drops the record); normalize; append the normalized record to the capped
event log. `parseJson` abstracts the platform's `JSON.parse`. -/
def processLine (parseJson : String → Option Json) (st : SseState)
    (line : String) : SseState :=
  if !(line.startsWith "data:") then st
  else
    let raw := trimStr (String.mk (line.data.drop 5))
    if raw == "" || raw == "[DONE]" then st
    else
      match parseJson raw with
      | none => st
      | some parsed =>
        match normalizeEvent parsed with
        | none => st
        | some evt => { st with events := lastN 50 st.events ++ [evt] }

/-- One network read of the SSE loop: append the decoded chunk to the
carry buffer, split on newlines, keep the trailing partial line as the new
buffer (`buffer = lines.pop() ?? ""`), process the complete lines. -/
def processChunk (parseJson : String → Option Json)
    (acc : SseState × String) (chunk : String) : SseState × String :=
  let combined := acc.snd ++ chunk
  let pieces := (splitOnCharL '\n' combined.data).map (fun cs => String.mk cs)
  let lines := pieces.dropLast
  let buffer := pieces.getLast?.getD ""
  (lines.foldl (processLine parseJson) acc.fst, buffer)

/-- The read loop over the chunks delivered before the stream ended,
starting from an empty carry buffer. -/
def processChunks (parseJson : String → Option Json) (st : SseState)
    (chunks : List String) : SseState :=
  (chunks.foldl (processChunk parseJson) (st, "")).fst

/-- How the read loop terminated: normal end of stream (`done`), the
caller's abort signal (`AbortError`), or any other thrown failure. -/
inductive StreamEnd where
  | done
  | aborted
  | failed (msg : String)

/-- The `subscribe` function of the SSE effect from the source: without a
response body it warns and returns; with one it sets `sseConnected` to
`true` immediately — before any record has been observed — then runs the
read loop; the catch clause clears the flag only for non-`AbortError`
failures and never rethrows. -/
def subscribeRun (parseJson : String → Option Json) (hasBody : Bool)
    (chunks : List String) (ending : StreamEnd) (st0 : SseState) : SseState :=
  if !hasBody then st0
  else
    let st1 : SseState := { st0 with sseConnected := true }
    let st2 := processChunks parseJson st1 chunks
    match ending with
    | .done => st2
    | .aborted => st2
    | .failed _ => { st2 with sseConnected := false }

/-- The slice of client state mutated by `selectSession`: the selected id,
the transcript, the todo snapshot and the pending-permission list. -/
structure SelectState where
  selectedSessionId : Option String
  messages : List MessageWithParts
  todos : List TodoItem
  pendingPermissions : List PendingPermission
deriving Repr, DecidableEq

/-- The atomic segments of `selectSession(sessionID)` from the source,
split at its `await` points. Each fetch application carries the session id
it was issued for. -/
inductive SelectStep where
  | setSelected (sessionID : String)
  | applyMessages (issuedFor : String) (msgs : List MessageWithParts)
  | applyTodos (issuedFor : String) (todos : List TodoItem)
  | applyPermissions (issuedFor : String)
      (serverList : List ApiPermissionRequest) (now : Nat)
deriving Repr, DecidableEq

/-- How `selectSession` applies each segment, from the source: the
resolved fetch results are written to the store unconditionally —
`setMessages(msgs)`, `setTodos(...)` and the permission reconciliation
never compare the issuing session id against the currently selected one
(the `issuedFor` tag is ignored). -/
def selectStepRun (st : SelectState) : SelectStep → SelectState
  | .setSelected s => { st with selectedSessionId := some s }
  | .applyMessages _issuedFor msgs => { st with messages := msgs }
  | .applyTodos _issuedFor ts => { st with todos := ts }
  | .applyPermissions _issuedFor serverList now =>
    { st with pendingPermissions :=
        refreshPendingPermissions st.pendingPermissions serverList now }

/-- The segment sequence of one `selectSession(sessionID)` invocation:
select the session, then apply the message-history, todo and
pending-permission fetch results as they resolve. -/
def selectSessionTrace (sessionID : String) (fetchedMsgs : List MessageWithParts)
    (fetchedTodos : List TodoItem) (serverPerms : List ApiPermissionRequest)
    (now : Nat) : List SelectStep :=
  [SelectStep.setSelected sessionID,
   SelectStep.applyMessages sessionID fetchedMsgs,
   SelectStep.applyTodos sessionID fetchedTodos,
   SelectStep.applyPermissions sessionID serverPerms now]

/-- `Interleaves l1 l2 m`: `m` is an interleaving of `l1` and `l2` — a
legal cooperative schedule of two invocations whose own segment orders are
preserved. -/
inductive Interleaves : List α → List α → List α → Prop where
  | nil : Interleaves [] [] []
  | left {l1 l2 m : List α} (a : α) :
      Interleaves l1 l2 m → Interleaves (a :: l1) l2 (a :: m)
  | right {l1 l2 m : List α} (b : α) :
      Interleaves l1 l2 m → Interleaves l1 (b :: l2) (b :: m)

theorem findIndexL_cons (p : α → Bool) (x : α) (xs : List α) :
    findIndexL p (x :: xs) =
      if p x then some 0 else (findIndexL p xs).map (· + 1) := rfl

theorem findIndexL_eq_none_of_forall (p : α → Bool) (l : List α)
    (h : ∀ x ∈ l, p x = false) : findIndexL p l = none := by
  induction l with
  | nil => rfl
  | cons x xs ih =>
    simp only [findIndexL, h x (List.mem_cons_self x xs)]
    rw [ih (fun y hy => h y (List.mem_cons_of_mem x hy))]
    rfl

theorem findIndexL_lt_length (p : α → Bool) :
    ∀ (l : List α) (i : Nat), findIndexL p l = some i → i < l.length := by
  intro l
  induction l with
  | nil => intro i h; exact absurd h (by simp [findIndexL])
  | cons x xs ih =>
    intro i h
    rw [findIndexL_cons] at h
    by_cases hx : p x
    · rw [if_pos hx] at h
      cases h
      simp
    · rw [if_neg hx] at h
      cases hfi : findIndexL p xs with
      | none => rw [hfi] at h; cases h
      | some j =>
        rw [hfi] at h
        cases h
        have := ih j hfi
        simp only [List.length_cons]
        omega

/-- The `findIndex`-then-`set` shape with element access and identity
fallback equals `updateFirstRec`. -/
theorem findIndex_update_eq_updateFirstRec (p : α → Bool) (g : α → α) :
    ∀ l : List α,
    (match findIndexL p l with
     | none => l
     | some idx =>
       match l[idx]? with
       | none => l
       | some old => l.set idx (g old)) = updateFirstRec p g l := by
  intro l
  induction l with
  | nil => rfl
  | cons x xs ih =>
    rw [updateFirstRec, findIndexL_cons]
    by_cases hx : p x
    · rw [if_pos hx, if_pos hx]
      simp only [List.getElem?_cons_zero, List.set_cons_zero]
    · rw [if_neg hx, if_neg hx]
      cases hfi : findIndexL p xs with
      | none =>
        simp only [hfi, Option.map_none'] at ih ⊢
        rw [← ih]
      | some i =>
        simp only [hfi, Option.map_some'] at ih ⊢
        cases hg : xs[i]? with
        | none =>
          simp only [hg] at ih
          simp only [List.getElem?_cons_succ, hg]
          rw [← ih]
        | some old =>
          simp only [hg] at ih
          simp only [List.getElem?_cons_succ, hg, List.set_cons_succ]
          rw [ih]

/-- The `findIndex`-then-`set` shape with element access and append
fallback equals `upsertByRec`. -/
theorem findIndex_upsert_eq_upsertByRec (p : α → Bool) (g : α → α) (y : α) :
    ∀ l : List α,
    (match findIndexL p l with
     | none => l.concat y
     | some idx =>
       match l[idx]? with
       | none => l
       | some old => l.set idx (g old)) = upsertByRec p g y l := by
  intro l
  induction l with
  | nil => rfl
  | cons x xs ih =>
    rw [upsertByRec, findIndexL_cons]
    by_cases hx : p x
    · rw [if_pos hx, if_pos hx]
      simp only [List.getElem?_cons_zero, List.set_cons_zero]
    · rw [if_neg hx, if_neg hx]
      cases hfi : findIndexL p xs with
      | none =>
        simp only [hfi, Option.map_none'] at ih ⊢
        rw [← ih]
        rfl
      | some i =>
        simp only [hfi, Option.map_some'] at ih ⊢
        cases hg : xs[i]? with
        | none =>
          simp only [hg] at ih
          simp only [List.getElem?_cons_succ, hg]
          rw [← ih]
        | some old =>
          simp only [hg] at ih
          simp only [List.getElem?_cons_succ, hg, List.set_cons_succ]
          rw [ih]

theorem upsertSession_eq_rec (list : List Session) (next : Session) :
    upsertSession list next =
      upsertByRec (fun s => s.id == next.id) (fun _ => next) next list := by
  rw [← findIndex_upsert_eq_upsertByRec (fun s => s.id == next.id)
    (fun _ => next) next list]
  unfold upsertSession
  cases hfi : findIndexL (fun s => s.id == next.id) list with
  | none => simp [List.concat_eq_append]
  | some idx =>
    have hlt := findIndexL_lt_length _ list idx hfi
    simp only [List.getElem?_eq_getElem hlt]

theorem upsertMessage_eq_rec (list : List MessageWithParts) (info : Message) :
    upsertMessage list info =
      upsertByRec (fun m => m.info.id == info.id)
        (fun old => { old with info := info })
        { info := info, parts := [] } list := by
  rw [← findIndex_upsert_eq_upsertByRec (fun m => m.info.id == info.id)
    (fun old => { old with info := info }) { info := info, parts := [] } list]
  unfold upsertMessage
  cases hfi : findIndexL (fun m => m.info.id == info.id) list with
  | none => simp only [hfi]
  | some idx =>
    have hlt := findIndexL_lt_length _ list idx hfi
    simp only [hfi, List.getElem?_eq_getElem hlt]

theorem upsertPart_eq_rec (list : List MessageWithParts) (nextPart : Part) :
    upsertPart list nextPart =
      updateFirstRec (fun m => m.info.id == nextPart.messageID)
        (fun msg =>
          { msg with parts :=
              upsertByRec (fun p => p.id == nextPart.id) (fun _ => nextPart) nextPart msg.parts })
        list := by
  rw [← findIndex_update_eq_updateFirstRec
    (fun m => m.info.id == nextPart.messageID)
    (fun msg =>
      { msg with parts :=
          upsertByRec (fun p => p.id == nextPart.id) (fun _ => nextPart) nextPart msg.parts })
    list]
  unfold upsertPart
  cases hfi : findIndexL (fun m => m.info.id == nextPart.messageID) list with
  | none => simp only [hfi]
  | some idx =>
    cases hg : list[idx]? with
    | none => simp only [hfi, hg]
    | some msg =>
      simp only [hfi, hg]
      rw [← findIndex_upsert_eq_upsertByRec
        (fun p => p.id == nextPart.id) (fun _ => nextPart) nextPart msg.parts]
      cases hfp : findIndexL (fun p => p.id == nextPart.id) msg.parts with
      | none => simp only [hfp, List.concat_eq_append]
      | some partIdx =>
        cases hgp : msg.parts[partIdx]? with
        | none =>
          have hlt2 := findIndexL_lt_length _ msg.parts partIdx hfp
          have hsome := List.getElem?_eq_getElem hlt2
          rw [hgp] at hsome
          simp at hsome
        | some oldp => simp only [hgp]

theorem removePart_eq_rec (list : List MessageWithParts)
    (messageID partID : String) :
    removePart list messageID partID =
      updateFirstRec (fun m => m.info.id == messageID)
        (fun msg =>
          { msg with parts := msg.parts.filter (fun p => !(p.id == partID)) })
        list := by
  rw [← findIndex_update_eq_updateFirstRec
    (fun m => m.info.id == messageID)
    (fun msg =>
      { msg with parts := msg.parts.filter (fun p => !(p.id == partID)) }) list]
  unfold removePart
  cases hfi : findIndexL (fun m => m.info.id == messageID) list with
  | none => simp only [hfi]
  | some idx =>
    have hlt := findIndexL_lt_length _ list idx hfi
    simp only [hfi, List.getElem?_eq_getElem hlt]

theorem updateFirstRec_of_no_match (p : α → Bool) (g : α → α) (l : List α)
    (h : ∀ x ∈ l, p x = false) : updateFirstRec p g l = l := by
  induction l with
  | nil => rfl
  | cons x xs ih =>
    have hx := h x (List.mem_cons_self x xs)
    simp only [updateFirstRec, hx, Bool.false_eq_true, if_false]
    rw [ih (fun y hy => h y (List.mem_cons_of_mem x hy))]

theorem upsertByRec_of_no_match (p : α → Bool) (g : α → α) (y : α) (l : List α)
    (h : ∀ x ∈ l, p x = false) : upsertByRec p g y l = l ++ [y] := by
  induction l with
  | nil => rfl
  | cons x xs ih =>
    have hx := h x (List.mem_cons_self x xs)
    simp only [upsertByRec, hx, Bool.false_eq_true, if_false]
    rw [ih (fun y hy => h y (List.mem_cons_of_mem x hy))]
    rfl

theorem updateFirstRec_append_found (p : α → Bool) (g : α → α)
    (l1 : List α) (x : α) (l2 : List α)
    (h1 : ∀ a ∈ l1, p a = false) (hx : p x = true) :
    updateFirstRec p g (l1 ++ x :: l2) = l1 ++ g x :: l2 := by
  induction l1 with
  | nil => simp [updateFirstRec, hx]
  | cons a l1 ih =>
    have ha := h1 a (List.mem_cons_self a l1)
    simp only [List.cons_append, updateFirstRec, ha, Bool.false_eq_true, if_false]
    exact congrArg (fun t => a :: t) (ih (fun b hb => h1 b (List.mem_cons_of_mem a hb)))

theorem upsertByRec_append_found (p : α → Bool) (g : α → α) (y : α)
    (l1 : List α) (x : α) (l2 : List α)
    (h1 : ∀ a ∈ l1, p a = false) (hx : p x = true) :
    upsertByRec p g y (l1 ++ x :: l2) = l1 ++ g x :: l2 := by
  induction l1 with
  | nil => simp [upsertByRec, hx]
  | cons a l1 ih =>
    have ha := h1 a (List.mem_cons_self a l1)
    simp only [List.cons_append, upsertByRec, ha, Bool.false_eq_true, if_false]
    exact congrArg (fun t => a :: t) (ih (fun b hb => h1 b (List.mem_cons_of_mem a hb)))

theorem updateFirstRec_of_fix (p : α → Bool) (g : α → α) (l : List α)
    (h : ∀ x ∈ l, p x = true → g x = x) : updateFirstRec p g l = l := by
  induction l with
  | nil => rfl
  | cons x xs ih =>
    by_cases hx : p x
    · simp only [updateFirstRec, hx, if_true]
      rw [h x (List.mem_cons_self x xs) hx]
    · simp only [updateFirstRec, hx, Bool.false_eq_true, if_false]
      rw [ih (fun y hy hpy => h y (List.mem_cons_of_mem x hy) hpy)]

theorem updateFirstRec_idem (p : α → Bool) (g : α → α)
    (hp : ∀ x, p (g x) = p x) (hg : ∀ x, g (g x) = g x) (l : List α) :
    updateFirstRec p g (updateFirstRec p g l) = updateFirstRec p g l := by
  induction l with
  | nil => rfl
  | cons x xs ih =>
    by_cases hx : p x
    · simp only [updateFirstRec, hx, if_true, hp x, hg x]
    · simp only [updateFirstRec, hx, Bool.false_eq_true, if_false, ih]

theorem find_upsertByRec_self (o : Session) (i : String) (ho : o.id = i)
    (l : List Session) :
    (upsertByRec (fun s => s.id == o.id) (fun _ => o) o l).find?
      (fun s => s.id == i) = some o := by
  induction l with
  | nil =>
    simp only [upsertByRec]
    exact List.find?_cons_of_pos _ (by simp [ho])
  | cons x xs ih =>
    by_cases hx : (x.id == o.id)
    · simp only [upsertByRec, hx, if_true]
      exact List.find?_cons_of_pos _ (by simp [ho])
    · simp only [upsertByRec, hx, Bool.false_eq_true, if_false]
      rw [List.find?_cons_of_neg _ (by
        intro hcontra
        exact hx (by simp [beq_iff_eq.mp hcontra, ho]))]
      exact ih

theorem find_upsertByRec_other (o : Session) (i : String) (ho : o.id ≠ i)
    (l : List Session) :
    (upsertByRec (fun s => s.id == o.id) (fun _ => o) o l).find?
      (fun s => s.id == i) = l.find? (fun s => s.id == i) := by
  induction l with
  | nil =>
    simp only [upsertByRec]
    rw [List.find?_cons_of_neg _ (by simp [ho]), List.find?_nil]
  | cons x xs ih =>
    by_cases hx : (x.id == o.id)
    · simp only [upsertByRec, hx, if_true]
      rw [List.find?_cons_of_neg _ (by simp [ho]),
        List.find?_cons_of_neg _ (by simp [beq_iff_eq.mp hx, ho])]
    · simp only [upsertByRec, hx, Bool.false_eq_true, if_false]
      by_cases hxi : (x.id == i)
      · rw [List.find?_cons, List.find?_cons]
        simp only [hxi]
      · rw [List.find?_cons_of_neg _ (by simp_all),
          List.find?_cons_of_neg _ (by simp_all)]
        exact ih

theorem upsertSession_map_id (l : List Session) (o : Session) :
    (upsertSession l o).map Session.id = l.map Session.id
    ∨ (upsertSession l o).map Session.id = l.map Session.id ++ [o.id] := by
  rw [upsertSession_eq_rec]
  induction l with
  | nil => right; rfl
  | cons x xs ih =>
    by_cases hx : (x.id == o.id)
    · left
      simp only [upsertByRec, hx, if_true, List.map_cons]
      rw [beq_iff_eq.mp hx]
    · simp only [upsertByRec, hx, Bool.false_eq_true, if_false, List.map_cons]
      cases ih with
      | inl h => left; rw [h]
      | inr h => right; rw [h]; rfl

theorem applySessionEvents_concat (init : List Session) (ops : List Session)
    (o : Session) :
    applySessionEvents init (ops ++ [o]) =
      upsertSession (applySessionEvents init ops) o := by
  simp [applySessionEvents, List.foldl_append]

theorem lastUpsertFor_concat (ops : List Session) (o : Session) (i : String) :
    lastUpsertFor (ops ++ [o]) i =
      if o.id == i then some o else lastUpsertFor ops i := by
  unfold lastUpsertFor
  rw [List.reverse_append]
  by_cases ho : (o.id == i)
  · rw [if_pos ho]
    simp only [List.reverse_singleton, List.singleton_append]
    exact List.find?_cons_of_pos _ ho
  · rw [if_neg ho]
    simp only [List.reverse_singleton, List.singleton_append]
    exact List.find?_cons_of_neg _ (by simp_all)

theorem sessionFold_find (init : List Session) (ops : List Session)
    (i : String) :
    findSessionById (applySessionEvents init ops) i =
      match lastUpsertFor ops i with
      | some s => some s
      | none => findSessionById init i := by
  induction ops using List.reverseRecOn with
  | nil => rfl
  | append_singleton ops o ih =>
    rw [applySessionEvents_concat, lastUpsertFor_concat]
    by_cases ho : (o.id == i)
    · rw [if_pos ho]
      unfold findSessionById
      rw [upsertSession_eq_rec]
      exact find_upsertByRec_self o i (beq_iff_eq.mp ho) _
    · rw [if_neg ho]
      unfold findSessionById
      rw [upsertSession_eq_rec]
      rw [find_upsertByRec_other o i (by simpa using ho) _]
      exact ih

theorem sessionFold_ids (ops : List Session) :
    ∀ init : List Session, ∃ rest,
      (applySessionEvents init ops).map Session.id =
        init.map Session.id ++ rest := by
  induction ops with
  | nil => intro init; exact ⟨[], by simp [applySessionEvents]⟩
  | cons o ops ih =>
    intro init
    have hstep := upsertSession_map_id init o
    obtain ⟨r2, hr2⟩ := ih (upsertSession init o)
    have hfold : applySessionEvents init (o :: ops) =
        applySessionEvents (upsertSession init o) ops := by
      simp [applySessionEvents]
    rw [hfold, hr2]
    cases hstep with
    | inl h => exact ⟨r2, by rw [h]⟩
    | inr h => exact ⟨o.id :: r2, by rw [h, List.append_assoc]; rfl⟩

/-- **C2.** For every session list and every finite sequence of
`upsertSession` applications, the entry stored for an id equals the
payload of the last `upsertSession` applied for that id, every entry with
a different id is unchanged, and the relative order of pre-existing
entries is never changed — the initial id sequence stays a prefix, with
new ids appended at the end. -/
theorem claim_C2_session_upsert_fold (init ops : List Session) (i : String) :
    ((lastUpsertFor ops i).isSome →
      findSessionById (applySessionEvents init ops) i = lastUpsertFor ops i)
    ∧ (lastUpsertFor ops i = none →
      findSessionById (applySessionEvents init ops) i = findSessionById init i)
    ∧ ∃ rest, (applySessionEvents init ops).map Session.id =
        init.map Session.id ++ rest := by
  refine ⟨?_, ?_, sessionFold_ids ops init⟩
  · intro h
    rw [sessionFold_find]
    cases hl : lastUpsertFor ops i with
    | none => rw [hl] at h; simp at h
    | some s => rfl
  · intro h
    rw [sessionFold_find, h]

/-- Witness for C2 at a concrete input: three upserts, two for `"s1"`
around one for `"s2"`; the stored entry for `"s1"` is the payload of the
last upsert for `"s1"`. -/
theorem claim_C2_session_upsert_fold_witness :
    (lastUpsertFor
        [⟨"s1", "B", "b", 2⟩, ⟨"s2", "C", "c", 3⟩, ⟨"s1", "D", "d", 4⟩]
        "s1").isSome
    ∧ findSessionById
        (applySessionEvents [⟨"s1", "A", "a", 1⟩]
          [⟨"s1", "B", "b", 2⟩, ⟨"s2", "C", "c", 3⟩, ⟨"s1", "D", "d", 4⟩])
        "s1" =
      lastUpsertFor
        [⟨"s1", "B", "b", 2⟩, ⟨"s2", "C", "c", 3⟩, ⟨"s1", "D", "d", 4⟩]
        "s1" :=
  ⟨by decide,
   (claim_C2_session_upsert_fold [⟨"s1", "A", "a", 1⟩]
      [⟨"s1", "B", "b", 2⟩, ⟨"s2", "C", "c", 3⟩, ⟨"s1", "D", "d", 4⟩]
      "s1").1 (by decide)⟩

/-- **C3.** `upsertPart` returns the collection unchanged when no message
with `part.messageID` is present; and for a fresh message id, applying
`upsertMessage` for it and then `upsertPart` for a part referencing it
yields the collection extended with that message owning exactly that one
part. -/
theorem claim_C3_upsertPart_orphan_and_compose
    (msgs : List MessageWithParts) (pt : Part) (info : Message) :
    ((∀ m ∈ msgs, m.info.id ≠ pt.messageID) → upsertPart msgs pt = msgs)
    ∧ (info.id = pt.messageID → (∀ m ∈ msgs, m.info.id ≠ info.id) →
      upsertPart (upsertMessage msgs info) pt =
        msgs ++ [{ info := info, parts := [pt] }]) := by
  constructor
  · intro h
    rw [upsertPart_eq_rec]
    exact updateFirstRec_of_no_match _ _ _
      (fun m hm => beq_eq_false_iff_ne.mpr (h m hm))
  · intro hid h
    rw [upsertMessage_eq_rec,
      upsertByRec_of_no_match _ _ _ _
        (fun m hm => beq_eq_false_iff_ne.mpr (h m hm)),
      upsertPart_eq_rec]
    have hfound := updateFirstRec_append_found
      (fun m => m.info.id == pt.messageID)
      (fun msg =>
        { msg with parts :=
            upsertByRec (fun q => q.id == pt.id) (fun _ => pt) pt msg.parts })
      msgs { info := info, parts := [] } []
      (fun m hm => beq_eq_false_iff_ne.mpr (fun hcontra =>
        (h m hm) (hcontra.trans hid.symm)))
      (by simp [hid])
    exact hfound

/-- Witness for C3 at a concrete input (the spec's part-before-message
scenario): on the empty store, `upsertMessage` for `"m1"` then
`upsertPart` for `"p1"` leaves `"m1"` owning exactly `"p1"`. -/
theorem claim_C3_upsertPart_orphan_and_compose_witness :
    upsertPart
        (upsertMessage [] ⟨"m1", "s1", Role.user, none⟩)
        ⟨"p1", "m1", "text", "hi"⟩ =
      [] ++ [{ info := ⟨"m1", "s1", Role.user, none⟩,
               parts := [⟨"p1", "m1", "text", "hi"⟩] }] :=
  (claim_C3_upsertPart_orphan_and_compose []
    ⟨"p1", "m1", "text", "hi"⟩ ⟨"m1", "s1", Role.user, none⟩).2
    (by decide) (by decide)

/-- **C7.** `removePart` is idempotent, and it returns the collection
unchanged (no error) when no message with `messageID` exists or when that
message has no part with `partID`. -/
theorem claim_C7_removePart_idempotent
    (msgs : List MessageWithParts) (mid pid : String) :
    removePart (removePart msgs mid pid) mid pid = removePart msgs mid pid
    ∧ ((∀ m ∈ msgs, m.info.id ≠ mid) → removePart msgs mid pid = msgs)
    ∧ ((∀ m ∈ msgs, m.info.id = mid → ∀ q ∈ m.parts, q.id ≠ pid) →
      removePart msgs mid pid = msgs) := by
  refine ⟨?_, ?_, ?_⟩
  · simp only [removePart_eq_rec]
    refine updateFirstRec_idem (fun m => m.info.id == mid)
      (fun msg => { msg with parts := msg.parts.filter (fun q => !(q.id == pid)) })
      (fun x => rfl) (fun x => ?_) msgs
    have h2 : (x.parts.filter (fun q => !(q.id == pid))).filter
        (fun q => !(q.id == pid)) = x.parts.filter (fun q => !(q.id == pid)) :=
      List.filter_eq_self.mpr (fun a ha => (List.mem_filter.mp ha).2)
    exact congrArg (fun ps => ({ x with parts := ps } : MessageWithParts)) h2
  · intro h
    rw [removePart_eq_rec]
    exact updateFirstRec_of_no_match _ _ _
      (fun m hm => beq_eq_false_iff_ne.mpr (h m hm))
  · intro h
    rw [removePart_eq_rec]
    refine updateFirstRec_of_fix _ _ _ (fun x hx hpx => ?_)
    have hfix : x.parts.filter (fun q => !(q.id == pid)) = x.parts :=
      List.filter_eq_self.mpr (fun q hq => by
        simpa using h x hx (beq_iff_eq.mp hpx) q hq)
    rw [hfix]

/-- Witness for C7 at a concrete input: removing an absent message id, or
an absent part id, leaves the store unchanged. -/
theorem claim_C7_removePart_idempotent_witness :
    removePart
        [{ info := ⟨"m1", "s1", Role.user, none⟩,
           parts := [⟨"p1", "m1", "text", "hi"⟩] }] "mX" "p1" =
      [{ info := ⟨"m1", "s1", Role.user, none⟩,
         parts := [⟨"p1", "m1", "text", "hi"⟩] }] :=
  (claim_C7_removePart_idempotent
    [{ info := ⟨"m1", "s1", Role.user, none⟩,
       parts := [⟨"p1", "m1", "text", "hi"⟩] }] "mX" "p1").2.1 (by decide)

/-- **C8.** `upsertMessage` replaces only the matched message's `info`
field, preserving its part list and every other entry; a fresh id is
appended with an empty part list. -/
theorem claim_C8_upsertMessage_frame
    (msgs : List MessageWithParts) (info : Message) :
    ((∀ m ∈ msgs, m.info.id ≠ info.id) →
      upsertMessage msgs info = msgs ++ [{ info := info, parts := [] }])
    ∧ (∀ pre old post, msgs = pre ++ old :: post →
      (∀ m ∈ pre, m.info.id ≠ info.id) → old.info.id = info.id →
      upsertMessage msgs info =
        pre ++ { info := info, parts := old.parts } :: post) := by
  constructor
  · intro h
    rw [upsertMessage_eq_rec]
    exact upsertByRec_of_no_match _ _ _ _
      (fun m hm => beq_eq_false_iff_ne.mpr (h m hm))
  · intro pre old post hsplit hpre hold
    subst hsplit
    rw [upsertMessage_eq_rec]
    exact upsertByRec_append_found _ _ _ pre old post
      (fun m hm => beq_eq_false_iff_ne.mpr (hpre m hm))
      (by simp [hold])

/-- Witness for C8 at a concrete input: upserting new info for an existing
message id keeps its parts and its position. -/
theorem claim_C8_upsertMessage_frame_witness :
    upsertMessage
        [{ info := ⟨"m1", "s1", Role.user, none⟩,
           parts := [⟨"p1", "m1", "text", "hi"⟩] }]
        ⟨"m1", "s1", Role.assistant, none⟩ =
      [] ++ { info := ⟨"m1", "s1", Role.assistant, none⟩,
              parts := [⟨"p1", "m1", "text", "hi"⟩] } :: [] :=
  (claim_C8_upsertMessage_frame
    [{ info := ⟨"m1", "s1", Role.user, none⟩,
       parts := [⟨"p1", "m1", "text", "hi"⟩] }]
    ⟨"m1", "s1", Role.assistant, none⟩).2
    [] { info := ⟨"m1", "s1", Role.user, none⟩,
         parts := [⟨"p1", "m1", "text", "hi"⟩] } []
    rfl (by decide) (by decide)

/-- **C4.** Model resolution follows the strict precedence chain —
per-session override, else last-known model, else the most recent
user-authored message's model, else the global default — and after a
successful prompt send the resolved model becomes the session's last-known
model with the override cleared, so resolving again (under any transcript
and any default) returns that same model. -/
theorem claim_C4_model_resolution (id : String) (st : ModelState)
    (msgs : List MessageWithParts) (d : ModelRef) :
    (∀ m, st.overrideById id = some m →
      selectedSessionModel (some id) st msgs d = m)
    ∧ (st.overrideById id = none → ∀ m, st.knownById id = some m →
      selectedSessionModel (some id) st msgs d = m)
    ∧ (st.overrideById id = none → st.knownById id = none →
      ∀ m, lastUserModelFromMessages msgs = some m →
      selectedSessionModel (some id) st msgs d = m)
    ∧ (st.overrideById id = none → st.knownById id = none →
      lastUserModelFromMessages msgs = none →
      selectedSessionModel (some id) st msgs d = d)
    ∧ (∀ (msgs2 : List MessageWithParts) (d2 : ModelRef),
      selectedSessionModel (some id)
          (sendPromptModelEffect id st msgs d).fst msgs2 d2 =
        (sendPromptModelEffect id st msgs d).snd) := by
  refine ⟨?_, ?_, ?_, ?_, ?_⟩
  · intro m h
    simp [selectedSessionModel, h]
  · intro h1 m h2
    simp [selectedSessionModel, h1, h2]
  · intro h1 h2 m h3
    simp [selectedSessionModel, h1, h2, h3]
  · intro h1 h2 h3
    simp [selectedSessionModel, h1, h2, h3]
  · intro msgs2 d2
    simp [selectedSessionModel, sendPromptModelEffect, deleteModelEntry,
      setModelEntry]

/-- Witness for C4 at the spec's concrete scenario: override
`openai/gpt-5` beats last-known `anthropic/claude`; after the send effect,
resolution returns the model that was sent. -/
theorem claim_C4_model_resolution_witness :
    selectedSessionModel (some "s1")
        { overrideById := fun s =>
            if s == "s1" then some ⟨"openai", "gpt-5"⟩ else none,
          knownById := fun s =>
            if s == "s1" then some ⟨"anthropic", "claude"⟩ else none }
        [] DEFAULT_MODEL = ⟨"openai", "gpt-5"⟩
    ∧ selectedSessionModel (some "s1")
        (sendPromptModelEffect "s1"
          { overrideById := fun s =>
              if s == "s1" then some ⟨"openai", "gpt-5"⟩ else none,
            knownById := fun s =>
              if s == "s1" then some ⟨"anthropic", "claude"⟩ else none }
          [] DEFAULT_MODEL).fst [] DEFAULT_MODEL =
      (sendPromptModelEffect "s1"
        { overrideById := fun s =>
            if s == "s1" then some ⟨"openai", "gpt-5"⟩ else none,
          knownById := fun s =>
            if s == "s1" then some ⟨"anthropic", "claude"⟩ else none }
        [] DEFAULT_MODEL).snd :=
  ⟨(claim_C4_model_resolution "s1"
      { overrideById := fun s =>
          if s == "s1" then some ⟨"openai", "gpt-5"⟩ else none,
        knownById := fun s =>
          if s == "s1" then some ⟨"anthropic", "claude"⟩ else none }
      [] DEFAULT_MODEL).1 ⟨"openai", "gpt-5"⟩ (by decide),
   (claim_C4_model_resolution "s1"
      { overrideById := fun s =>
          if s == "s1" then some ⟨"openai", "gpt-5"⟩ else none,
        knownById := fun s =>
          if s == "s1" then some ⟨"anthropic", "claude"⟩ else none }
      [] DEFAULT_MODEL).2.2.2.2 [] DEFAULT_MODEL⟩

theorem refresh_mem_receivedAt (current : List PendingPermission)
    (serverList : List ApiPermissionRequest) (now : Nat) :
    ∀ e ∈ refreshPendingPermissions current serverList now,
      e.receivedAt =
        match current.reverse.find? (fun q => q.id == e.id) with
        | some q => q.receivedAt
        | none => now := by
  intro e he
  obtain ⟨p, _hp, rfl⟩ := List.mem_map.mp he
  rfl

theorem refresh_map_api (current : List PendingPermission)
    (serverList : List ApiPermissionRequest) (now : Nat) :
    (refreshPendingPermissions current serverList now).map
      (fun e => e.toApiPermissionRequest) = serverList := by
  induction serverList with
  | nil => rfl
  | cons p l ih =>
    simp only [refreshPendingPermissions, List.map_cons] at ih ⊢
    rw [ih]

theorem refresh_map_id (current : List PendingPermission)
    (serverList : List ApiPermissionRequest) (now : Nat) :
    (refreshPendingPermissions current serverList now).map (fun e => e.id) =
      serverList.map (fun p => p.id) := by
  induction serverList with
  | nil => rfl
  | cons p l ih =>
    simp only [refreshPendingPermissions, List.map_cons] at ih ⊢
    rw [ih]

theorem mem_ids_find_reverse (r : List PendingPermission) (i : String)
    (h : i ∈ r.map (fun e => e.id)) :
    ∃ e, r.reverse.find? (fun q => q.id == i) = some e := by
  obtain ⟨e, he, hid⟩ := List.mem_map.mp h
  have hsome : (r.reverse.find? (fun q => q.id == i)).isSome :=
    List.find?_isSome.mpr ⟨e, List.mem_reverse.mpr he, by simp [hid]⟩
  exact Option.isSome_iff_exists.mp hsome

theorem refresh_receivedAtOf_stable (r1 : List PendingPermission)
    (l2 : List ApiPermissionRequest) (now2 : Nat) (i : String)
    (hin1 : i ∈ r1.map (fun e => e.id)) (hin2 : i ∈ l2.map (fun p => p.id)) :
    receivedAtOf (refreshPendingPermissions r1 l2 now2) i =
      receivedAtOf r1 i := by
  obtain ⟨e1, he1⟩ := mem_ids_find_reverse r1 i hin1
  have hin2r : i ∈ (refreshPendingPermissions r1 l2 now2).map (fun e => e.id) := by
    rw [refresh_map_id]; exact hin2
  obtain ⟨e2, he2⟩ := mem_ids_find_reverse (refreshPendingPermissions r1 l2 now2)
    i hin2r
  have he2mem : e2 ∈ refreshPendingPermissions r1 l2 now2 :=
    List.mem_reverse.mp (List.mem_of_find?_eq_some he2)
  have he2beq := List.find?_some he2
  have he2id : e2.id = i := by simpa using he2beq
  have hval := refresh_mem_receivedAt r1 l2 now2 e2 he2mem
  rw [he2id, he1] at hval
  rw [receivedAtOf, he2, receivedAtOf, he1, Option.map_some', Option.map_some',
    hval]

/-- **C5.** The reconciled permission list contains exactly the server
list's entries in order; each entry's `receivedAt` is taken from the
previously held entry with the same id when one exists (the Map keeps the
last for a duplicated id; with no duplicate ids it is exactly that
entry's value), else set to `now`; and an id present in two consecutive
refreshes keeps its first-seen time. -/
theorem claim_C5_permission_reconciliation (current : List PendingPermission)
    (serverList : List ApiPermissionRequest) (now : Nat) :
    ((refreshPendingPermissions current serverList now).map
        (fun e => e.toApiPermissionRequest) = serverList)
    ∧ (∀ e ∈ refreshPendingPermissions current serverList now,
        e.receivedAt =
          match current.reverse.find? (fun q => q.id == e.id) with
          | some q => q.receivedAt
          | none => now)
    ∧ ((current.map (fun q => q.id)).Nodup →
        ∀ q ∈ current, ∀ e ∈ refreshPendingPermissions current serverList now,
          e.id = q.id → e.receivedAt = q.receivedAt)
    ∧ (∀ e ∈ refreshPendingPermissions current serverList now,
        (∀ q ∈ current, q.id ≠ e.id) → e.receivedAt = now)
    ∧ (∀ (l2 : List ApiPermissionRequest) (now2 : Nat) (i : String),
        i ∈ serverList.map (fun p => p.id) → i ∈ l2.map (fun p => p.id) →
        receivedAtOf (refreshPendingPermissions
            (refreshPendingPermissions current serverList now) l2 now2) i =
          receivedAtOf (refreshPendingPermissions current serverList now) i) := by
  refine ⟨refresh_map_api current serverList now, ?_, ?_, ?_, ?_⟩
  · exact refresh_mem_receivedAt current serverList now
  · intro hnd q hq e he hid
    have hval := refresh_mem_receivedAt current serverList now e he
    obtain ⟨q', hq'⟩ := mem_ids_find_reverse current e.id
      (List.mem_map.mpr ⟨q, hq, hid.symm⟩)
    have hq'mem : q' ∈ current :=
      List.mem_reverse.mp (List.mem_of_find?_eq_some hq')
    have hq'beq := List.find?_some hq'
    have hq'id : q'.id = e.id := by simpa using hq'beq
    have : q' = q :=
      List.inj_on_of_nodup_map hnd hq'mem hq (hq'id.trans hid)
    rw [hq', this] at hval
    exact hval
  · intro e he hnone
    have hval := refresh_mem_receivedAt current serverList now e he
    rw [List.find?_eq_none.mpr (fun q hq => by
      simpa using hnone q (List.mem_reverse.mp hq))] at hval
    exact hval
  · intro l2 now2 i h1 h2
    exact refresh_receivedAtOf_stable _ l2 now2 i
      (by rw [refresh_map_id]; exact h1) h2

/-- Witness for C5 at the spec's concrete scenario: previously held
`perm1` with `receivedAt = 1000`; the server re-list returns `perm1` and
`perm2` at time 5000; `perm1` keeps 1000 and `perm2` gets 5000. -/
theorem claim_C5_permission_reconciliation_witness :
    (∀ e ∈ refreshPendingPermissions
        [{ toApiPermissionRequest := ⟨"perm1", "s1", "write", ["a"]⟩,
           receivedAt := 1000 }]
        [⟨"perm1", "s1", "write", ["a"]⟩, ⟨"perm2", "s1", "read", ["b"]⟩]
        5000,
      e.receivedAt =
        match ([{ toApiPermissionRequest := ⟨"perm1", "s1", "write", ["a"]⟩,
                  receivedAt := 1000 }] :
              List PendingPermission).reverse.find?
            (fun q => q.id == e.id) with
        | some q => q.receivedAt
        | none => 5000)
    ∧ refreshPendingPermissions
        [{ toApiPermissionRequest := ⟨"perm1", "s1", "write", ["a"]⟩,
           receivedAt := 1000 }]
        [⟨"perm1", "s1", "write", ["a"]⟩, ⟨"perm2", "s1", "read", ["b"]⟩]
        5000 =
      [{ toApiPermissionRequest := ⟨"perm1", "s1", "write", ["a"]⟩,
         receivedAt := 1000 },
       { toApiPermissionRequest := ⟨"perm2", "s1", "read", ["b"]⟩,
         receivedAt := 5000 }] :=
  ⟨(claim_C5_permission_reconciliation
      [{ toApiPermissionRequest := ⟨"perm1", "s1", "write", ["a"]⟩,
         receivedAt := 1000 }]
      [⟨"perm1", "s1", "write", ["a"]⟩, ⟨"perm2", "s1", "read", ["b"]⟩]
      5000).2.1,
   by decide⟩

theorem lastFailureReason_cons (o : PollOutcome) (rest : List PollOutcome) :
    lastFailureReason (o :: rest) =
      match lastFailureReason rest with
      | some r => some r
      | none =>
        match o with
        | .ok h => if h.healthy then none else some "Server reported unhealthy"
        | .threw msg => some msg := by
  unfold lastFailureReason
  rw [List.reverse_cons, List.findSome?_append]
  cases hrest : List.findSome? _ rest.reverse with
  | none =>
    simp only [Option.or]
    rw [List.findSome?_cons]
    cases o with
    | ok h =>
      by_cases hb : h.healthy
      · simp [hb]
      · simp [hb]
    | threw msg => simp
  | some r => simp [Option.or]

theorem waitForHealthyGo_ok (h : Health) :
    ∀ polls : List PollOutcome, firstHealthy polls = some h →
    ∀ acc : Option String, waitForHealthyGo polls acc = .ok h := by
  intro polls
  induction polls with
  | nil => intro hfirst; exact absurd hfirst (by simp [firstHealthy])
  | cons o rest ih =>
    intro hfirst acc
    cases o with
    | ok hh =>
      by_cases hb : hh.healthy
      · have hhh : hh = h := by
          rw [firstHealthy, List.findSome?_cons] at hfirst
          simpa [hb] using hfirst
        subst hhh
        simp [waitForHealthyGo, hb]
      · have hrest : firstHealthy rest = some h := by
          rw [firstHealthy, List.findSome?_cons] at hfirst
          simpa [hb, firstHealthy] using hfirst
        simp only [waitForHealthyGo, hb, Bool.false_eq_true, if_false]
        exact ih hrest _
    | threw m =>
      have hrest : firstHealthy rest = some h := by
        rw [firstHealthy, List.findSome?_cons] at hfirst
        simpa [firstHealthy] using hfirst
      simp only [waitForHealthyGo]
      exact ih hrest _

theorem waitForHealthyGo_fail :
    ∀ polls : List PollOutcome, firstHealthy polls = none →
    ∀ acc : Option String, waitForHealthyGo polls acc =
      .error ((lastFailureReason polls).getD
        (acc.getD "Timed out waiting for server health")) := by
  intro polls
  induction polls with
  | nil =>
    intro _ acc
    simp [waitForHealthyGo, lastFailureReason]
  | cons o rest ih =>
    intro hfirst acc
    cases o with
    | ok hh =>
      have hb : hh.healthy = false := by
        by_contra hcontra
        rw [firstHealthy, List.findSome?_cons] at hfirst
        have hb2 : hh.healthy = true := by
          revert hcontra; cases hh.healthy <;> simp
        simp [hb2] at hfirst
      have hrest : firstHealthy rest = none := by
        rw [firstHealthy, List.findSome?_cons] at hfirst
        simpa [hb, firstHealthy] using hfirst
      simp only [waitForHealthyGo, hb, Bool.false_eq_true, if_false]
      rw [ih hrest (some "Server reported unhealthy"),
        lastFailureReason_cons]
      cases hlfr : lastFailureReason rest with
      | none => simp [hlfr, hb]
      | some r => simp [hlfr]
    | threw m =>
      have hrest : firstHealthy rest = none := by
        rw [firstHealthy, List.findSome?_cons] at hfirst
        simpa [firstHealthy] using hfirst
      simp only [waitForHealthyGo]
      rw [ih hrest (some m), lastFailureReason_cons]
      cases hlfr : lastFailureReason rest with
      | none => simp [hlfr]
      | some r => simp [hlfr]

theorem lastFailureReason_isSome :
    ∀ polls : List PollOutcome, firstHealthy polls = none → polls ≠ [] →
    (lastFailureReason polls).isSome := by
  intro polls
  induction polls with
  | nil => intro _ hne; exact absurd rfl hne
  | cons o rest ih =>
    intro hfirst _
    rw [lastFailureReason_cons]
    cases hlfr : lastFailureReason rest with
    | some r => simp
    | none =>
      cases o with
      | ok hh =>
        have hb : hh.healthy = false := by
          by_contra hcontra
          rw [firstHealthy, List.findSome?_cons] at hfirst
          have hb2 : hh.healthy = true := by
            revert hcontra; cases hh.healthy <;> simp
          simp [hb2] at hfirst
        simp [hb]
      | threw m => simp

/-- **C6.** The health probe returns the health payload (including the
server version) as soon as a poll reports healthy within the timeout
window; if no admitted poll reports healthy, it fails with the most
recently observed failure reason — the non-healthy reason or the last
thrown error's message — which exists whenever at least one poll ran,
rather than the generic timeout fallback. -/
theorem claim_C6_health_probe (polls : List PollOutcome) :
    (∀ h, firstHealthy polls = some h → waitForHealthy polls = .ok h)
    ∧ (firstHealthy polls = none → polls ≠ [] →
      (lastFailureReason polls).isSome
      ∧ waitForHealthy polls =
          .error ((lastFailureReason polls).getD
            "Timed out waiting for server health")) := by
  constructor
  · intro h hfirst
    exact waitForHealthyGo_ok h polls hfirst none
  · intro hfirst hne
    refine ⟨lastFailureReason_isSome polls hfirst hne, ?_⟩
    exact waitForHealthyGo_fail polls hfirst none

/-- Witness for C6 at the spec's concrete scenarios: two unhealthy polls
followed by a healthy `1.2.3` payload succeed with that payload; a probe
that never sees healthy fails with the last observed reason. -/
theorem claim_C6_health_probe_witness :
    (firstHealthy [.ok ⟨false, ""⟩, .ok ⟨false, ""⟩, .ok ⟨true, "1.2.3"⟩] =
      some ⟨true, "1.2.3"⟩)
    ∧ waitForHealthy [.ok ⟨false, ""⟩, .ok ⟨false, ""⟩, .ok ⟨true, "1.2.3"⟩] =
      .ok ⟨true, "1.2.3"⟩
    ∧ waitForHealthy [.threw "connection refused", .ok ⟨false, ""⟩] =
      .error ((lastFailureReason [.threw "connection refused", .ok ⟨false, ""⟩]).getD
        "Timed out waiting for server health") :=
  ⟨by decide,
   (claim_C6_health_probe
      [.ok ⟨false, ""⟩, .ok ⟨false, ""⟩, .ok ⟨true, "1.2.3"⟩]).1
      ⟨true, "1.2.3"⟩ (by decide),
   ((claim_C6_health_probe [.threw "connection refused", .ok ⟨false, ""⟩]).2
      (by decide) (by decide)).2⟩

theorem dropWhile_append_left (q : α → Bool) (l1 l2 : List α)
    (hp : l1.dropWhile q = l1) (hne : l1 ≠ []) :
    (l1 ++ l2).dropWhile q = l1 ++ l2 := by
  cases l1 with
  | nil => exact absurd rfl hne
  | cons x xs =>
    have hq : q x = false := by
      by_contra hcontra
      have hqx : q x = true := by revert hcontra; cases q x <;> simp
      rw [List.dropWhile_cons, hqx] at hp
      have hlen := congrArg List.length hp
      have hle : (xs.dropWhile q).length ≤ xs.length :=
        (List.dropWhile_sublist q).length_le
      simp only [List.length_cons, if_true] at hlen
      omega
    rw [List.cons_append, List.dropWhile_cons, hq]
    simp

theorem trimL_eq_self_of_ends (l : List Char)
    (h1 : l.dropWhile jsWhitespace = l)
    (h2 : l.reverse.dropWhile jsWhitespace = l.reverse) :
    trimL l = l := by
  unfold trimL
  rw [h1, h2, List.reverse_reverse]

theorem trimL_format_shape (pd midd : List Char) (hpne : pd ≠ [])
    (hp1 : pd.dropWhile jsWhitespace = pd)
    (hm2 : midd.reverse.dropWhile jsWhitespace = midd.reverse) :
    trimL (pd ++ '/' :: midd) = pd ++ '/' :: midd := by
  refine trimL_eq_self_of_ends _ (dropWhile_append_left _ _ _ hp1 hpne) ?_
  rw [List.reverse_append, List.reverse_cons]
  cases hm : midd.reverse with
  | nil =>
    have hws : jsWhitespace '/' = false := by decide
    simp only [hm, List.nil_append, List.singleton_append, List.dropWhile_cons,
      hws, Bool.false_eq_true, if_false]
  | cons y ys =>
    rw [List.append_assoc, List.singleton_append]
    rw [← hm]
    exact dropWhile_append_left _ _ _ hm2 (by rw [hm]; exact List.cons_ne_nil y ys)

theorem splitOnCharL_ne_nil (c : Char) (l : List Char) :
    splitOnCharL c l ≠ [] := by
  cases l with
  | nil => simp [splitOnCharL]
  | cons x xs =>
    unfold splitOnCharL
    cases splitOnCharL c xs with
    | nil => simp
    | cons piece pieces =>
      by_cases hx : (x == c) <;> simp [hx]

theorem splitOnCharL_cons_sep (c : Char) (l : List Char) :
    splitOnCharL c (c :: l) = [] :: splitOnCharL c l := by
  cases h : splitOnCharL c l with
  | nil => exact absurd h (splitOnCharL_ne_nil c l)
  | cons piece pieces =>
    rw [splitOnCharL, h]
    simp

theorem splitOnCharL_append_no_sep (c : Char) (p : List Char)
    (hp : ∀ x ∈ p, (x == c) = false) (l : List Char)
    (piece : List Char) (pcs : List (List Char))
    (hl : splitOnCharL c l = piece :: pcs) :
    splitOnCharL c (p ++ l) = (p ++ piece) :: pcs := by
  induction p with
  | nil => simpa using hl
  | cons a p ih =>
    have ha := hp a (List.mem_cons_self a p)
    have hrec := ih (fun x hx => hp x (List.mem_cons_of_mem a hx))
    rw [List.cons_append]
    unfold splitOnCharL
    rw [hrec]
    simp [ha]

theorem joinWithChar_splitOnCharL (c : Char) :
    ∀ l : List Char, joinWithChar c (splitOnCharL c l) = l := by
  intro l
  induction l with
  | nil => rfl
  | cons x xs ih =>
    unfold splitOnCharL
    cases h : splitOnCharL c xs with
    | nil => exact absurd h (splitOnCharL_ne_nil c xs)
    | cons piece pcs =>
      rw [h] at ih
      by_cases hx : (x == c)
      · simp only [hx, if_true]
        have hxc : x = c := beq_iff_eq.mp hx
        cases pcs with
        | nil =>
          simp only [joinWithChar] at ih ⊢
          simp [ih, hxc]
        | cons p2 pcs2 =>
          simp only [joinWithChar] at ih ⊢
          simp [ih, hxc]
      · simp only [hx, Bool.false_eq_true, if_false]
        cases pcs with
        | nil =>
          simp only [joinWithChar] at ih ⊢
          rw [ih]
        | cons p2 pcs2 =>
          simp only [joinWithChar] at ih ⊢
          rw [List.cons_append, ih]

/-- **C10.** `parseModelRef` is a left inverse of `formatModelRef`: for
every `ModelRef` whose provider id is non-empty, contains no `'/'` and has
no leading or trailing whitespace, and whose model id has no leading or
trailing whitespace, formatting then parsing restores the structurally
equal `ModelRef` — a persisted default-model preference round-trips. -/
theorem claim_C10_model_ref_roundtrip (m : ModelRef)
    (hne : m.providerID.data ≠ [])
    (hslash : ∀ ch ∈ m.providerID.data, ch ≠ '/')
    (hp1 : m.providerID.data.dropWhile jsWhitespace = m.providerID.data)
    (_hp2 : m.providerID.data.reverse.dropWhile jsWhitespace =
      m.providerID.data.reverse)
    (_hm1 : m.modelID.data.dropWhile jsWhitespace = m.modelID.data)
    (hm2 : m.modelID.data.reverse.dropWhile jsWhitespace =
      m.modelID.data.reverse) :
    parseModelRef (some (formatModelRef m)) = some m := by
  have hdata : (formatModelRef m).data =
      m.providerID.data ++ '/' :: m.modelID.data := by
    show (m.providerID ++ "/" ++ m.modelID).data = _
    rw [String.data_append, String.data_append, List.append_assoc]
    rfl
  have htrim : trimL (m.providerID.data ++ '/' :: m.modelID.data) =
      m.providerID.data ++ '/' :: m.modelID.data :=
    trimL_format_shape _ _ hne hp1 hm2
  obtain ⟨piece, pcs, hsp⟩ :
      ∃ piece pcs, splitOnCharL '/' m.modelID.data = piece :: pcs := by
    cases h : splitOnCharL '/' m.modelID.data with
    | nil => exact absurd h (splitOnCharL_ne_nil _ _)
    | cons a b => exact ⟨a, b, rfl⟩
  have hsplit : splitOnCharL '/' (m.providerID.data ++ '/' :: m.modelID.data) =
      m.providerID.data :: splitOnCharL '/' m.modelID.data := by
    have hmid := splitOnCharL_cons_sep '/' m.modelID.data
    have := splitOnCharL_append_no_sep '/' m.providerID.data
      (fun x hx => beq_eq_false_iff_ne.mpr (hslash x hx))
      ('/' :: m.modelID.data) [] (splitOnCharL '/' m.modelID.data) hmid
    simpa using this
  have hjoin : joinWithChar '/' (splitOnCharL '/' m.modelID.data) =
      m.modelID.data := joinWithChar_splitOnCharL '/' m.modelID.data
  have hnonempty : (m.providerID.data ++ '/' :: m.modelID.data).isEmpty = false := by
    cases hpd : m.providerID.data with
    | nil => exact absurd hpd hne
    | cons a b => rfl
  have hpdempty : m.providerID.data.isEmpty = false := by
    cases hpd : m.providerID.data with
    | nil => exact absurd hpd hne
    | cons a b => rfl
  have hrestempty : (splitOnCharL '/' m.modelID.data).isEmpty = false := by
    rw [hsp]; rfl
  rw [parseModelRef]
  simp only [hdata, hnonempty, Bool.false_eq_true, if_false, htrim, hsplit,
    hpdempty, hrestempty, hjoin]

/-- Witness for C10 at the built-in default model: `opencode/gpt-5-nano`
round-trips through format and parse. -/
theorem claim_C10_model_ref_roundtrip_witness :
    parseModelRef (some (formatModelRef DEFAULT_MODEL)) = some DEFAULT_MODEL :=
  claim_C10_model_ref_roundtrip DEFAULT_MODEL (by decide) (by decide)
    (by decide) (by decide) (by decide) (by decide)

theorem processLine_sseConnected (pj : String → Option Json) (st : SseState)
    (line : String) : (processLine pj st line).sseConnected = st.sseConnected := by
  simp only [processLine]
  repeat' split <;> try rfl

theorem foldl_processLine_sseConnected (pj : String → Option Json)
    (lines : List String) :
    ∀ st : SseState,
      (lines.foldl (processLine pj) st).sseConnected = st.sseConnected := by
  induction lines with
  | nil => intro st; rfl
  | cons line rest ih =>
    intro st
    rw [List.foldl_cons, ih (processLine pj st line), processLine_sseConnected]

theorem processChunks_sseConnected (pj : String → Option Json)
    (chunks : List String) :
    ∀ acc : SseState × String,
      ((chunks.foldl (processChunk pj) acc).fst).sseConnected =
        acc.fst.sseConnected := by
  induction chunks with
  | nil => intro acc; rfl
  | cons c rest ih =>
    intro acc
    rw [List.foldl_cons, ih (processChunk pj acc c)]
    exact foldl_processLine_sseConnected pj _ acc.fst

/-- **C9 counterexample.** The claim as stated is false on the code: with
a response body present and no records at all, the connected flag is
already `true` while the normalized-event log is still empty — the flag is
set upon obtaining the body, not upon the first successfully normalized
record. -/
theorem claim_C9_counterexample :
    (subscribeRun (fun _ => none) true [] StreamEnd.done
      { sseConnected := false, events := [] }).sseConnected = true
    ∧ (subscribeRun (fun _ => none) true [] StreamEnd.done
      { sseConnected := false, events := [] }).events = [] :=
  ⟨rfl, rfl⟩

/-- **C9 (amended).** The connected flag is set to `true` as soon as the
SSE response body is obtained — before any record is normalized — and
stays true through the read loop; termination via the caller's abort
signal leaves the loop without surfacing an error and without clearing the
flag there (the effect's cleanup clears it separately); any other
read-loop failure clears the flag; without a body the state is
untouched. -/
theorem claim_C9_connected_flag (parseJson : String → Option Json)
    (chunks : List String) (st0 : SseState) (e : StreamEnd) :
    ((e = StreamEnd.done ∨ e = StreamEnd.aborted) →
      (subscribeRun parseJson true chunks e st0).sseConnected = true)
    ∧ (∀ msg,
      (subscribeRun parseJson true chunks (StreamEnd.failed msg) st0).sseConnected
        = false)
    ∧ (subscribeRun parseJson false chunks e st0 = st0) := by
  refine ⟨?_, ?_, ?_⟩
  · intro he
    have hbase := processChunks_sseConnected parseJson chunks
      ({ st0 with sseConnected := true }, "")
    cases he with
    | inl h => subst h; exact hbase
    | inr h => subst h; exact hbase
  · intro msg; rfl
  · rfl

/-- Witness for the amended C9 at a concrete input: an aborted
subscription that obtained a body keeps the flag set without surfacing an
error. -/
theorem claim_C9_connected_flag_witness :
    (subscribeRun (fun _ => none) true ["data: x\n"] StreamEnd.aborted
      { sseConnected := false, events := [] }).sseConnected = true :=
  (claim_C9_connected_flag (fun _ => none) ["data: x\n"]
    { sseConnected := false, events := [] } StreamEnd.aborted).1 (Or.inr rfl)

/-- **C1 (code behaviour at the failing interleaving).** `selectSession`
applies resolved fetch results unconditionally — the session id a fetch
was issued for is never compared against the currently selected id. In the
legal interleaving where `selectSession("s1")` suspends at its message
fetch, `selectSession("s2")` then runs to completion, and s1's fetches
resolve last, the final state has session s2 selected but s1's transcript
and todo snapshot: the stale fetch overwrites the freshly selected
session's state instead of being discarded. -/
theorem claim_C1_stale_fetch_clobbers :
    Interleaves
      (selectSessionTrace "s1" [⟨⟨"m1", "s1", Role.user, none⟩, []⟩]
        [⟨"t1", "todo one", "pending", "high"⟩] [] 10)
      (selectSessionTrace "s2" [⟨⟨"m2", "s2", Role.user, none⟩, []⟩]
        [⟨"t2", "todo two", "pending", "low"⟩] [] 20)
      [SelectStep.setSelected "s1", SelectStep.setSelected "s2",
       SelectStep.applyMessages "s2" [⟨⟨"m2", "s2", Role.user, none⟩, []⟩],
       SelectStep.applyTodos "s2" [⟨"t2", "todo two", "pending", "low"⟩],
       SelectStep.applyPermissions "s2" [] 20,
       SelectStep.applyMessages "s1" [⟨⟨"m1", "s1", Role.user, none⟩, []⟩],
       SelectStep.applyTodos "s1" [⟨"t1", "todo one", "pending", "high"⟩],
       SelectStep.applyPermissions "s1" [] 10]
    ∧ (([SelectStep.setSelected "s1", SelectStep.setSelected "s2",
         SelectStep.applyMessages "s2" [⟨⟨"m2", "s2", Role.user, none⟩, []⟩],
         SelectStep.applyTodos "s2" [⟨"t2", "todo two", "pending", "low"⟩],
         SelectStep.applyPermissions "s2" [] 20,
         SelectStep.applyMessages "s1" [⟨⟨"m1", "s1", Role.user, none⟩, []⟩],
         SelectStep.applyTodos "s1" [⟨"t1", "todo one", "pending", "high"⟩],
         SelectStep.applyPermissions "s1" [] 10].foldl selectStepRun
        ⟨none, [], [], []⟩).selectedSessionId = some "s2")
    ∧ (([SelectStep.setSelected "s1", SelectStep.setSelected "s2",
         SelectStep.applyMessages "s2" [⟨⟨"m2", "s2", Role.user, none⟩, []⟩],
         SelectStep.applyTodos "s2" [⟨"t2", "todo two", "pending", "low"⟩],
         SelectStep.applyPermissions "s2" [] 20,
         SelectStep.applyMessages "s1" [⟨⟨"m1", "s1", Role.user, none⟩, []⟩],
         SelectStep.applyTodos "s1" [⟨"t1", "todo one", "pending", "high"⟩],
         SelectStep.applyPermissions "s1" [] 10].foldl selectStepRun
        ⟨none, [], [], []⟩).messages = [⟨⟨"m1", "s1", Role.user, none⟩, []⟩])
    ∧ (([SelectStep.setSelected "s1", SelectStep.setSelected "s2",
         SelectStep.applyMessages "s2" [⟨⟨"m2", "s2", Role.user, none⟩, []⟩],
         SelectStep.applyTodos "s2" [⟨"t2", "todo two", "pending", "low"⟩],
         SelectStep.applyPermissions "s2" [] 20,
         SelectStep.applyMessages "s1" [⟨⟨"m1", "s1", Role.user, none⟩, []⟩],
         SelectStep.applyTodos "s1" [⟨"t1", "todo one", "pending", "high"⟩],
         SelectStep.applyPermissions "s1" [] 10].foldl selectStepRun
        ⟨none, [], [], []⟩).todos = [⟨"t1", "todo one", "pending", "high"⟩])
    ∧ ([⟨⟨"m1", "s1", Role.user, none⟩, []⟩] : List MessageWithParts) ≠
        [⟨⟨"m2", "s2", Role.user, none⟩, []⟩] := by
  refine ⟨?_, rfl, rfl, rfl, by decide⟩
  exact Interleaves.left _ (Interleaves.right _ (Interleaves.right _
    (Interleaves.right _ (Interleaves.right _ (Interleaves.left _
    (Interleaves.left _ (Interleaves.left _ Interleaves.nil)))))))

end OpenWork
